import Mathlib

/-!
A shallow embedding of the incremental batch-orchestration core of the
repository: the keyword ledger and hash short-circuit of
`scripts/generate-content.js`, the credential rotator (`ApiKeyManager`), the
per-keyword generation pipeline (`processNewKeywords`), and the batch
scheduler of `scripts/batch-generator.js`.  Definitions are translated from
the JavaScript source; definitions whose name contains `Spec` instead
formalize the natural-language specification, for comparison against the
source-derived definitions.
-/

namespace Lets

/-- Cache record persisted in `.generate-cache.json`:
`[generatedKeywords, lastHash]`.  `lastHash` holds the decimal string of a
32-bit hash; `none` models the initial empty-string hash, which is not the
rendering of any computed hash and therefore matches none. -/
structure Cache where
  generatedKeywords : List String
  lastHash : Option Int
  deriving Repr, DecidableEq

/-- The whitespace characters stripped by JavaScript `String.prototype.trim`
(restricted to the ASCII ones that occur in keyword files). -/
def jsWhitespace (c : Char) : Bool :=
  c = ' ' || c = '\t' || c = '\n' || c = '\r'

/-- JavaScript `s.trim()`: leading and trailing whitespace removed. -/
def jsTrim (s : String) : String :=
  String.mk (((s.toList.dropWhile jsWhitespace).reverse.dropWhile jsWhitespace).reverse)

/-- JavaScript `s.toLowerCase()` on ASCII text. -/
def lowerString (s : String) : String := String.mk (s.toList.map Char.toLower)

/-- Function `getNewKeywords` from `scripts/generate-content.js` (lines 51-56):
`currentKeywords.filter(keyword => !existingKeywords.includes(keyword.trim()))`. -/
def getNewKeywords (currentKeywords : List String) (cache : Cache) : List String :=
  let existingKeywords := cache.generatedKeywords
  currentKeywords.filter (fun keyword => !existingKeywords.contains (jsTrim keyword))

/-- Normalization the spec prescribes for ledger comparison: lower-cased
trimmed text. -/
def specNormKey (s : String) : String := lowerString (jsTrim s)

/-- The pending set exactly as the spec words it: `K - P`, comparing
case-insensitively on trimmed text. -/
def pendingSpec (keywords prior : List String) : List String :=
  keywords.filter (fun k => !prior.any (fun p => specNormKey p == specNormKey k))

/-- The pure core of `BatchGenerator.getPendingKeywords`
(`scripts/batch-generator.js` lines 44-59): the keyword list filtered by
membership in the processed set. -/
def pendingOf (allKeywords processed : List String) : List String :=
  allKeywords.filter (fun keyword => !processed.contains keyword)

/-- JavaScript ToInt32 coercion (the effect of `x & x`, and of `<<`, on a JS
number). -/
def toInt32 (n : Int) : Int := (n + 2 ^ 31) % 2 ^ 32 - 2 ^ 31

/-- One step of `getKeywordsHash`:
`hash = ((hash << 5) - hash) + char; hash = hash & hash`. -/
def hashStep (h : Int) (c : Nat) : Int := toInt32 (toInt32 (h * 32) - h + c)

/-- Function `getKeywordsHash` from `scripts/generate-content.js` (lines 41-49),
folding over the UTF-16 units of the content (`charCodeAt`; for code points
below 0x10000 these coincide with `Char.toNat`). -/
def getKeywordsHash (keywordsContent : String) : Int :=
  keywordsContent.toList.foldl (fun h ch => hashStep h ch.toNat) 0

/-- Reason codes returned by `incrementalGenerate`. -/
inductive GenReason where
  | noKeywords | noChanges | noNewKeywords | success
  deriving Repr, DecidableEq

/-- Outcome of the ledger-decision part of `incrementalGenerate`: either an
early return carrying the generated and skipped counts and a reason code, or
the list of new keywords handed to `processNewKeywords`. -/
inductive GenDecision where
  | skip (generated skipped : Nat) (reason : GenReason)
  | generate (newKeywords : List String)
  deriving Repr, DecidableEq

/-- Lines 100-127 of `scripts/generate-content.js`: with the keyword list
already loaded (`isBatch` tells whether it came from the batch file), the
hash short-circuit followed by the ledger diff. -/
def incrementalDecision (keywords : List String) (isBatch : Bool) (cache : Cache) :
    GenDecision :=
  if keywords.isEmpty then .skip 0 0 .noKeywords
  else
    let keywordsContent := String.intercalate "\n" keywords
    let currentHash := getKeywordsHash keywordsContent
    if !isBatch && cache.lastHash == some currentHash then
      .skip 0 keywords.length .noChanges
    else
      let newKeywords := getNewKeywords keywords cache
      if newKeywords.isEmpty then
        .skip 0 cache.generatedKeywords.length .noNewKeywords
      else
        .generate newKeywords

/-- Result of one `ApiKeyManager.generate` call: `result` is the index of the
credential that produced the response (`none` models the thrown
"all credentials exhausted" error), `cursor` is `this.currentIndex` after the
call, and `attempts` is the number of credentials tried. -/
structure GenResult where
  result : Option Nat
  cursor : Nat
  attempts : Nat
  deriving Repr, DecidableEq

/-- The retry loop of `ApiKeyManager.generate`
(`scripts/generate-content.js` lines 265-293), with the outcome of each
credential given by the oracle `ok`.  The recursion counts the remaining
iterations (`N` down to `0`), so the loop variable is `i = N - remaining`;
`this.currentIndex` is reassigned only on success. -/
def generateAux (N cursor : Nat) (ok : Nat → Bool) : Nat → GenResult
  | 0 => ⟨none, cursor, 0⟩
  | r + 1 =>
    let i := N - (r + 1)
    let modelIndex := (cursor + i) % N
    if ok modelIndex then ⟨some modelIndex, (modelIndex + 1) % N, 1⟩
    else
      let res := generateAux N cursor ok r
      ⟨res.result, res.cursor, res.attempts + 1⟩

/-- Method `ApiKeyManager.generate` over `N` credentials starting at `cursor`. -/
def ApiKeyManager.generate (N cursor : Nat) (ok : Nat → Bool) : GenResult :=
  generateAux N cursor ok N

/-- Batch progress status values (`idle`, `processing`, `completed`). -/
inductive Status where
  | idle | processing | completed
  deriving Repr, DecidableEq

/-- The batch-progress record persisted in `.batch-progress.json`
(`scripts/batch-generator.js` lines 28-36).  `lastRun` and `startedAt` are
millisecond timestamps. -/
structure Progress where
  totalKeywords : Nat
  processedKeywords : List String
  currentBatch : Nat
  totalBatches : Nat
  lastRun : Option Int
  status : Status
  startedAt : Int
  deriving Repr, DecidableEq

/-- The fresh record `BatchGenerator.loadProgress` builds when no progress
file exists (lines 27-36). -/
def freshProgress (startedAt : Int) : Progress :=
  ⟨0, [], 0, 0, none, .idle, startedAt⟩

/-- Method `BatchGenerator.getPendingKeywords` applied to a progress record, with
`allKeywords` the trimmed nonempty lines of keyword.txt. -/
def getPendingKeywords (allKeywords : List String) (p : Progress) : List String :=
  pendingOf allKeywords p.processedKeywords

/-- Method `BatchGenerator.shouldRunBatch` (lines 61-82).  The source tests
`(now - lastRun) / (1000 * 60) < BATCH_INTERVAL_MINUTES` with exact
JavaScript division; over integer timestamps that comparison is equivalent to
the product form used here. -/
def shouldRunBatch (intervalMinutes now : Int) (p : Progress) : Bool :=
  if p.status = .completed then false
  else
    match p.lastRun with
    | some lastRun => if now - lastRun < intervalMinutes * 60000 then false else true
    | none => true

/-- JavaScript `Math.ceil(n / b)` for a natural `n` and a positive natural `b`. -/
def jsCeilDiv (n b : Nat) : Nat := (n + b - 1) / b

/-- Method `BatchGenerator.prepareBatch` (lines 84-112), parameterized by the
configured batch size (`BATCH_SIZE = 5`): returns the batch written to the
transient batch file (`none` models the `null` return) together with the
updated progress record. -/
def prepareBatch (batchSize : Nat) (allKeywords : List String) (p : Progress) :
    Option (List String) × Progress :=
  let pendingKeywords := getPendingKeywords allKeywords p
  if pendingKeywords.isEmpty then
    (none, { p with status := .completed })
  else
    let batchKeywords := pendingKeywords.take batchSize
    (some batchKeywords,
      { p with
          currentBatch := p.currentBatch + 1,
          totalKeywords := p.processedKeywords.length + pendingKeywords.length,
          totalBatches := jsCeilDiv pendingKeywords.length batchSize,
          status := .processing })

/-- Method `BatchGenerator.markBatchComplete` (lines 114-132): append the processed
batch, stamp `lastRun`, and flip the status to `completed` when the count
`totalKeywords - processedKeywords.length` is not positive (truncated natural
subtraction agrees with the JavaScript sign test here). -/
def markBatchComplete (now : Int) (batch : List String) (p : Progress) : Progress :=
  let p1 := { p with
                processedKeywords := p.processedKeywords ++ batch,
                lastRun := some now }
  let pending := p1.totalKeywords - p1.processedKeywords.length
  if 0 < pending then p1 else { p1 with status := .completed }

/-- One successful `runBatch` generation cycle (lines 145-194):
`prepareBatch`, then `markBatchComplete` on the batch it returned (no state
change beyond `prepareBatch` when the batch was `null`). -/
def runCycle (batchSize : Nat) (now : Int) (allKeywords : List String)
    (p : Progress) : Progress :=
  match prepareBatch batchSize allKeywords p with
  | (none, p1) => p1
  | (some batch, p1) => markBatchComplete now batch p1

/-- States reachable by the batch driver `runBatch`: the fresh record from
`loadProgress`, a `prepareBatch` update, and `markBatchComplete` applied to
the batch the preceding `prepareBatch` returned. -/
inductive ReachableProgress (b : Nat) (K : List String) : Progress → Prop where
  | init (t : Int) : ReachableProgress b K (freshProgress t)
  | prep {p : Progress} :
      ReachableProgress b K p → ReachableProgress b K (prepareBatch b K p).2
  | complete {p : Progress} {batch : List String} {now : Int} :
      ReachableProgress b K p → (prepareBatch b K p).1 = some batch →
      ReachableProgress b K (markBatchComplete now batch (prepareBatch b K p).2)

/-- Auxiliary strengthened invariant for the batch progress state: either the
record is still the untouched fresh one, or `totalKeywords` accounts for the
processed and pending keywords and the status tracks pending emptiness. -/
def ProgressInv (K : List String) (p : Progress) : Prop :=
  (p.processedKeywords = [] ∧ p.totalKeywords = 0 ∧ p.status = .idle)
  ∨ (p.totalKeywords
        = p.processedKeywords.length + (getPendingKeywords K p).length
      ∧ (p.status = .completed ↔ (getPendingKeywords K p).length = 0))

/-- The `postsPerDay` computation of `processNewKeywords`
(`scripts/generate-content.js` lines 338-339):
`Math.ceil(keywordsToGenerate.length / (BACKDATE_DAYS + FUTURE_SCHEDULE_DAYS)) || 1`. -/
def postsPerDayOf (numKeywords backdateDays futureDays : Nat) : Nat :=
  let totalScheduleSpan := backdateDays + futureDays
  let c := jsCeilDiv numKeywords totalScheduleSpan
  if c = 0 then 1 else c

/-- The per-keyword date computation (lines 359-362):
`daySlot = Math.floor((keywordCount - 1) / postsPerDay)` and
`dayOffset = daySlot - (BACKDATE_DAYS > 0 ? BACKDATE_DAYS - 1 : 0)`; the
publish date is today plus `dayOffset` days. -/
def dayOffsetOf (keywordCount postsPerDay backdateDays : Nat) : Int :=
  let daySlot := (keywordCount - 1) / postsPerDay
  (daySlot : Int) - (if 0 < backdateDays then (backdateDays : Int) - 1 else 0)

/-- The posts-per-day formula exactly as the spec words it:
`ceil(pendingCount / (backdateDays + futureDays))` with minimum 1. -/
def postsPerDaySpec (pendingCount backdateDays futureDays : Nat) : Nat :=
  max 1 (jsCeilDiv pendingCount (backdateDays + futureDays))

/-- The date formula exactly as the spec words it: slot
`= floor((ordinal - 1) / postsPerDay)` and date
`= today + (slot - backdateDays + 1)` days. -/
def dateOffsetSpec (ordinal postsPerDay backdateDays : Nat) : Int :=
  ((ordinal - 1) / postsPerDay : Nat) - (backdateDays : Int) + 1

/-- The article record assembled by the pipeline, restricted to the fields
the pipeline itself touches (`deepDive` and `importance` are rewritten,
`imageUrl` is filled in) plus an opaque slug standing for the remaining
model-produced fields. -/
structure Article where
  slug : String
  deepDive : String
  importance : String
  imageUrl : Option String
  deriving Repr, DecidableEq

/-- Oracle for the external calls made while processing the keyword with
counter value `kc` (`keywordCount` in the source): `strategy` gives the
parsed analysis (`none` models a step-1 exception - all credentials
exhausted, or no JSON extracted); `draft kc dateOffset` gives the parsed
draft for the computed publish date (`none` models a step-2 exception);
`rewriteDeepDive` and `rewriteImportance` model `uniquenessBooster`, which is
total (it returns the original text on failure); `image` models
`fetchImageFromPexels`, which is total (`none` on failure). -/
structure PipelineOracle where
  strategy : Nat → Option String
  draft : Nat → Int → Option Article
  rewriteDeepDive : Nat → String → String
  rewriteImportance : Nat → String → String
  image : Nat → Option String

/-- One iteration of the `processNewKeywords` loop body
(`scripts/generate-content.js` lines 349-389) for the keyword with counter
`kc`: step 1 (strategy), step 2 (draft, with the computed date), step 3
(uniqueness rewrite of both long-form fields), step 4 (image enrichment);
`none` when an exception in step 1 or 2 aborts the keyword. -/
def processOne (o : PipelineOracle) (postsPerDay backdateDays kc : Nat) :
    Option Article :=
  match o.strategy kc with
  | none => none
  | some _persona =>
    let dateOffset := dayOffsetOf kc postsPerDay backdateDays
    match o.draft kc dateOffset with
    | none => none
    | some jsonResult =>
      some { jsonResult with
               deepDive := o.rewriteDeepDive kc jsonResult.deepDive,
               importance := o.rewriteImportance kc jsonResult.importance,
               imageUrl := o.image kc }

/-- The `processNewKeywords` loop (lines 344-395) over the remaining
keywords, with `kc` the current `keywordCount`: returns the articles
appended to the store in order, the `generatedCount`, and the keywords
reported failed (the `[FAILED]` log lines, which log the trimmed keyword). -/
def processKeywordsFrom (o : PipelineOracle) (postsPerDay backdateDays : Nat) :
    List String → Nat → List Article × Nat × List String
  | [], _ => ([], 0, [])
  | kw :: rest, kc =>
    let kc1 := kc + 1
    let r := processKeywordsFrom o postsPerDay backdateDays rest kc1
    match processOne o postsPerDay backdateDays kc1 with
    | some article => (article :: r.1, r.2.1 + 1, r.2.2)
    | none => (r.1, r.2.1, jsTrim kw :: r.2.2)

/-- Function `processNewKeywords` (lines 335-398): starting from the loaded article
store `allArticles` (so `keywordCount` starts at its length), returns the
final store contents, the generated count and the failed-keyword log.  The
store is persisted after every push, so the returned store for any prefix of
the keyword list is exactly what is on disk at that point. -/
def processNewKeywords (o : PipelineOracle) (backdateDays futureDays : Nat)
    (keywordsToGenerate : List String) (allArticles : List Article) :
    List Article × Nat × List String :=
  let postsPerDay := postsPerDayOf keywordsToGenerate.length backdateDays futureDays
  let r := processKeywordsFrom o postsPerDay backdateDays keywordsToGenerate
    allArticles.length
  (allArticles ++ r.1, r.2.1, r.2.2)

/-- JSON values, as produced by `JSON.parse` (restricted to integer numerals
and escape-free strings, the fragment exercised here). -/
inductive Json where
  | null
  | bool (b : Bool)
  | num (n : Int)
  | str (s : String)
  | arr (elems : List Json)
  | obj (fields : List (String × Json))

/-- JSON whitespace skipping for the `JSON.parse` model. -/
def skipWs : List Char → List Char
  | [] => []
  | c :: cs => if c = ' ' || c = '\t' || c = '\n' || c = '\r' then skipWs cs else c :: cs

/-- Longest digit prefix and the remaining input. -/
def takeDigits : List Char → List Char × List Char
  | [] => ([], [])
  | c :: cs =>
    if c.isDigit then
      let r := takeDigits cs
      (c :: r.1, r.2)
    else ([], c :: cs)

/-- Numeric value of a digit string. -/
def digitsVal (ds : List Char) : Nat :=
  ds.foldl (fun n c => n * 10 + (c.toNat - 48)) 0

/-- Characters of a string literal up to the closing quote (no escapes). -/
def takeUntilQuote : List Char → Option (List Char × List Char)
  | [] => none
  | c :: cs =>
    if c = '"' then some ([], cs)
    else
      match takeUntilQuote cs with
      | none => none
      | some r => some (c :: r.1, r.2)

mutual

/-- Modelled from the spec: recursive-descent parser for one JSON value,
standing in for the JavaScript built-in `JSON.parse` (not part of the
repository), restricted to integer numerals and escape-free strings.  The
fuel argument only bounds recursion depth; it is at least twice the input
length at the top call, which every call chain respects since each recursive
call consumes input. -/
def parseValue : Nat → List Char → Option (Json × List Char)
  | 0, _ => none
  | fuel + 1, cs =>
    match skipWs cs with
    | [] => none
    | c :: rest =>
      if c = 'n' then
        match rest with
        | 'u' :: 'l' :: 'l' :: rest2 => some (Json.null, rest2)
        | _ => none
      else if c = 't' then
        match rest with
        | 'r' :: 'u' :: 'e' :: rest2 => some (Json.bool true, rest2)
        | _ => none
      else if c = 'f' then
        match rest with
        | 'a' :: 'l' :: 's' :: 'e' :: rest2 => some (Json.bool false, rest2)
        | _ => none
      else if c = '-' then
        match takeDigits rest with
        | ([], _) => none
        | (ds, rest2) => some (Json.num (-(digitsVal ds : Int)), rest2)
      else if c.isDigit then
        match takeDigits (c :: rest) with
        | ([], _) => none
        | (ds, rest2) => some (Json.num (digitsVal ds : Int), rest2)
      else if c = '"' then
        match takeUntilQuote rest with
        | none => none
        | some (sc, rest2) => some (Json.str (String.mk sc), rest2)
      else if c = '[' then
        match skipWs rest with
        | ']' :: rest2 => some (Json.arr [], rest2)
        | _ =>
          match parseElems fuel rest with
          | none => none
          | some (es, rest2) => some (Json.arr es, rest2)
      else if c = '{' then
        match skipWs rest with
        | '}' :: rest2 => some (Json.obj [], rest2)
        | _ =>
          match parseMembers fuel rest with
          | none => none
          | some (ms, rest2) => some (Json.obj ms, rest2)
      else none

/-- Comma-separated array elements up to the closing bracket. -/
def parseElems : Nat → List Char → Option (List Json × List Char)
  | 0, _ => none
  | fuel + 1, cs =>
    match parseValue fuel cs with
    | none => none
    | some (v, rest) =>
      match skipWs rest with
      | ',' :: rest2 =>
        match parseElems fuel rest2 with
        | none => none
        | some (es, rest3) => some (v :: es, rest3)
      | ']' :: rest2 => some ([v], rest2)
      | _ => none

/-- Comma-separated object members up to the closing brace. -/
def parseMembers : Nat → List Char → Option (List (String × Json) × List Char)
  | 0, _ => none
  | fuel + 1, cs =>
    match skipWs cs with
    | '"' :: rest =>
      match takeUntilQuote rest with
      | none => none
      | some (key, rest2) =>
        match skipWs rest2 with
        | ':' :: rest3 =>
          match parseValue fuel rest3 with
          | none => none
          | some (v, rest4) =>
            match skipWs rest4 with
            | ',' :: rest5 =>
              match parseMembers fuel rest5 with
              | none => none
              | some (ms, rest6) => some ((String.mk key, v) :: ms, rest6)
            | '}' :: rest5 => some ([(String.mk key, v)], rest5)
            | _ => none
        | _ => none
    | _ => none

end

/-- JavaScript `JSON.parse`: one JSON value with nothing but whitespace after it;
`none` models the thrown `SyntaxError`. -/
def jsonParse (s : String) : Option Json :=
  match parseValue (2 * s.length + 2) s.toList with
  | none => none
  | some (v, rest) => if skipWs rest = [] then some v else none

/-- The prefix of the input up to and including its last close brace, or
`none` when the input has no close brace: the greedy extent of `[\s\S]*\}`. -/
def splitAtLastClose : List Char → Option (List Char)
  | [] => none
  | c :: rest =>
    match splitAtLastClose rest with
    | some pre => some (c :: pre)
    | none => if c = '}' then some [c] else none

/-- The leftmost-greedy match of the regular expression in `extractJson`
(`text.match(/\{[\s\S]*\}/)`): the span from the first `{` that is
followed by some `}` through the last `}` of the input. -/
def greedyBraceSpan : List Char → Option (List Char)
  | [] => none
  | c :: rest =>
    if c = '{' then
      match splitAtLastClose rest with
      | some pre => some (c :: pre)
      | none => none
    else greedyBraceSpan rest

/-- Function `extractJson` from `scripts/generate-content.js` (lines 239-251): match
the regex, `JSON.parse` the matched span, return `null` when there is no
match or parsing throws. -/
def extractJson (text : String) : Option Json :=
  match greedyBraceSpan text.toList with
  | none => none
  | some span =>
    match jsonParse (String.mk span) with
    | some v => some v
    | none => none

/-- The span of a balanced `{...}` group: scans at the given brace depth and
stops at the close brace that returns the depth to zero. -/
def takeBalanced : Nat → List Char → Option (List Char)
  | _, [] => none
  | depth, c :: rest =>
    if c = '{' then
      match takeBalanced (depth + 1) rest with
      | some tail => some (c :: tail)
      | none => none
    else if c = '}' then
      if depth = 1 then some [c]
      else
        match takeBalanced (depth - 1) rest with
        | some tail => some (c :: tail)
        | none => none
    else
      match takeBalanced depth rest with
      | some tail => some (c :: tail)
      | none => none

/-- The first balanced `{...}` span of the input, exactly as the spec words
it: from the first `{` through its matching `}`. -/
def firstBalancedSpan : List Char → Option (List Char)
  | [] => none
  | c :: rest =>
    if c = '{' then
      match takeBalanced 1 rest with
      | some tail => some (c :: tail)
      | none => none
    else firstBalancedSpan rest

/-- The extraction step exactly as the spec words it: parse the first
balanced `{...}` span of the text. -/
def extractJsonFirstBalancedSpec (text : String) : Option Json :=
  match firstBalancedSpan text.toList with
  | none => none
  | some span =>
    match jsonParse (String.mk span) with
    | some v => some v
    | none => none

lemma generateAux_all_fail (N cursor : Nat) (ok : Nat → Bool) (hN : 0 < N)
    (hfail : ∀ j, j < N → ok j = false) :
    ∀ r, generateAux N cursor ok r = ⟨none, cursor, r⟩ := by
  intro r
  induction r with
  | zero => rfl
  | succ r ih =>
    have hlt : (cursor + (N - (r + 1))) % N < N := Nat.mod_lt _ hN
    simp [generateAux, hfail _ hlt, ih]

lemma generateAux_success (N M : Nat) (ok : Nat → Bool) (hM : M < N)
    (hfail : ∀ j, j < M → ok j = false) (hsucc : ok M = true) :
    ∀ r, r ≤ N → N - r ≤ M →
      generateAux N 0 ok r = ⟨some M, (M + 1) % N, M - (N - r) + 1⟩ := by
  intro r
  induction r with
  | zero => intro _ h; omega
  | succ r ih =>
    intro hrN hrM
    have hiN : N - (r + 1) < N := by omega
    have hmod : (0 + (N - (r + 1))) % N = N - (r + 1) := by
      rw [Nat.zero_add]; exact Nat.mod_eq_of_lt hiN
    rcases Nat.lt_or_ge (N - (r + 1)) M with hlt | hge
    · have hok : ok (N - (r + 1)) = false := hfail _ hlt
      have := ih (by omega) (by omega)
      simp only [generateAux, hmod, hok, Bool.false_eq_true, if_false, this]
      refine congrArg (GenResult.mk (some M) ((M + 1) % N)) ?_
      omega
    · have heq : N - (r + 1) = M := by omega
      have hmodM : (0 + M) % N = M := by
        rw [Nat.zero_add]; exact Nat.mod_eq_of_lt hM
      simp only [generateAux, heq, hmodM, hsucc, if_true]
      refine congrArg (GenResult.mk (some M) ((M + 1) % N)) ?_
      omega

/-- C2: with the cursor at 0, if the first `M` credentials fail and the
`(M+1)`-th succeeds, `generate` makes exactly `M+1` attempts, returns the
`(M+1)`-th credential's result (index `M`) and leaves the cursor at
`(M+1) % N`; and if all `N` credentials fail, `generate` makes exactly `N`
attempts and fails with the exhaustion error (modelled as `result = none`). -/
theorem generate_rotation (N M : Nat) (ok okAll : Nat → Bool)
    (hM : M < N) (hfail : ∀ j, j < M → ok j = false) (hsucc : ok M = true)
    (hall : ∀ j, okAll j = false) :
    ApiKeyManager.generate N 0 ok = ⟨some M, (M + 1) % N, M + 1⟩
    ∧ ApiKeyManager.generate N 0 okAll = ⟨none, 0, N⟩ := by
  constructor
  · have := generateAux_success N M ok hM hfail hsucc N le_rfl (by omega)
    simpa [ApiKeyManager.generate] using this
  · exact generateAux_all_fail N 0 okAll (by omega) (fun j _ => hall j) N

/-- Witness for C2 at `N = 3`, `M = 1`. -/
theorem generate_rotation_witness :
    ApiKeyManager.generate 3 0 (fun j => decide (j = 1)) = ⟨some 1, 2, 2⟩
    ∧ ApiKeyManager.generate 3 0 (fun _ => false) = ⟨none, 0, 3⟩ :=
  generate_rotation 3 1 (fun j => decide (j = 1)) (fun _ => false)
    (by decide) (by decide) (by decide) (fun _ => rfl)

/-- C10: when all `N` credentials fail within one `generate` call, the call
throws the exhaustion error (`result = none`) and `this.currentIndex` is left
unchanged, so the next call starts at the same credential this one did. -/
theorem generate_exhausted_cursor_frame (N cursor : Nat) (ok : Nat → Bool)
    (hN : 0 < N) (hfail : ∀ j, j < N → ok j = false) :
    ApiKeyManager.generate N cursor ok = ⟨none, cursor, N⟩ :=
  generateAux_all_fail N cursor ok hN hfail N

/-- Witness for C10 at `N = 2`, cursor 1. -/
theorem generate_exhausted_cursor_frame_witness :
    ApiKeyManager.generate 2 1 (fun _ => false) = ⟨none, 1, 2⟩ :=
  generate_exhausted_cursor_frame 2 1 (fun _ => false) (by decide)
    (fun _ _ => rfl)

/-- C1 counterexample: the ledger diff is case-sensitive.  With current list
`["Foo"]` and cache `["foo"]` the code reports `"Foo"` as pending, while the
claimed case-insensitive difference is empty. -/
theorem getNewKeywords_not_case_insensitive :
    getNewKeywords ["Foo"] ⟨["foo"], none⟩ = ["Foo"]
    ∧ pendingSpec ["Foo"] ["foo"] = []
    ∧ getNewKeywords ["Foo"] ⟨["foo"], none⟩ ≠ pendingSpec ["Foo"] ["foo"] := by
  refine ⟨by decide, by decide, by decide⟩

/-- C1 (amended): the incremental ledger's pending set is the current list
minus the cache entries under exact (case-sensitive) comparison of the
trimmed keyword, the batch ledger's pending set is the keyword list minus the
processed set under exact comparison, and both computations are idempotent
(recomputing pending with no new input yields the same set). -/
theorem pending_exact_diff_and_idempotent (K : List String) (cache : Cache)
    (processed : List String) :
    (∀ k, k ∈ getNewKeywords K cache ↔ k ∈ K ∧ jsTrim k ∉ cache.generatedKeywords)
    ∧ getNewKeywords (getNewKeywords K cache) cache = getNewKeywords K cache
    ∧ (∀ k, k ∈ pendingOf K processed ↔ k ∈ K ∧ k ∉ processed)
    ∧ pendingOf (pendingOf K processed) processed = pendingOf K processed := by
  refine ⟨fun k => ?_, ?_, fun k => ?_, ?_⟩
  · simp [getNewKeywords, List.mem_filter]
  · simp [getNewKeywords, List.filter_filter]
  · simp [pendingOf, List.mem_filter]
  · simp [pendingOf, List.filter_filter]

/-- C9: when the run is not a batch run and the current keyword list
serializes to content byte-identical to the previously observed list, whose
rolling hash is recorded in the cache's `lastHash`, the generator returns the
`no_changes` result before the ledger diff: zero keywords generated. -/
theorem hash_shortcircuit (keywords : List String) (prevContent : String)
    (cache : Cache) (hne : keywords ≠ [])
    (hprev : prevContent = String.intercalate "\n" keywords)
    (hhash : cache.lastHash = some (getKeywordsHash prevContent)) :
    incrementalDecision keywords false cache
      = .skip 0 keywords.length .noChanges := by
  have hempty : keywords.isEmpty = false := by
    simpa [List.isEmpty_iff] using hne
  rw [incrementalDecision]
  rw [hprev] at hhash
  simp [hempty, hhash]

/-- Witness for C9 at the one-keyword list `["alpha"]`. -/
theorem hash_shortcircuit_witness :
    incrementalDecision ["alpha"] false ⟨[], some (getKeywordsHash "alpha")⟩
      = .skip 0 1 .noChanges :=
  hash_shortcircuit ["alpha"] "alpha" ⟨[], some (getKeywordsHash "alpha")⟩
    (by decide) rfl rfl

/-- C5: `shouldRunBatch` returns false when the status is `completed`;
false when `lastRun` is set and less than the configured interval has elapsed
since it; and true otherwise, in particular when `lastRun` is null and the
status is not `completed`. -/
theorem shouldRunBatch_characterization (intervalMinutes now : Int) (p : Progress) :
    shouldRunBatch intervalMinutes now p = true
      ↔ (p.status ≠ .completed
          ∧ ∀ t, p.lastRun = some t → intervalMinutes * 60000 ≤ now - t) := by
  cases hs : p.status <;> cases hl : p.lastRun <;>
    simp only [shouldRunBatch, hs, hl] <;> simp

lemma pendingOf_append (K processed batch : List String) :
    pendingOf K (processed ++ batch)
      = (pendingOf K processed).filter (fun k => !batch.contains k) := by
  unfold pendingOf
  rw [List.filter_filter]
  apply List.filter_congr
  intro a _
  simp [Bool.and_comm]

lemma filter_take_nodup (l : List String) (hl : l.Nodup) (b : Nat) :
    l.filter (fun x => !(l.take b).contains x) = l.drop b := by
  induction l generalizing b with
  | nil => simp
  | cons a l ih =>
    obtain ⟨ha, hl2⟩ := List.nodup_cons.mp hl
    cases b with
    | zero => simp
    | succ b =>
      simp only [List.take_succ_cons, List.drop_succ_cons, List.filter_cons]
      have hpa : (!(a :: l.take b).contains a) = false := by simp
      rw [hpa]
      simp only [Bool.false_eq_true, if_false]
      have hcg : l.filter (fun x => !(a :: l.take b).contains x)
          = l.filter (fun x => !(l.take b).contains x) := by
        apply List.filter_congr
        intro x hx
        have hxa : x ≠ a := fun h => ha (h ▸ hx)
        simp [hxa]
      rw [hcg, ih hl2]

lemma getPending_markBatchComplete (K : List String) (now : Int)
    (batch : List String) (p : Progress) :
    getPendingKeywords K (markBatchComplete now batch p)
      = (getPendingKeywords K p).filter (fun k => !batch.contains k) := by
  unfold markBatchComplete
  dsimp only
  split
  · exact pendingOf_append K p.processedKeywords batch
  · exact pendingOf_append K p.processedKeywords batch

lemma markBatchComplete_processed (now : Int) (batch : List String) (p : Progress) :
    (markBatchComplete now batch p).processedKeywords
      = p.processedKeywords ++ batch := by
  unfold markBatchComplete
  dsimp only
  split <;> rfl

lemma markBatchComplete_total (now : Int) (batch : List String) (p : Progress) :
    (markBatchComplete now batch p).totalKeywords = p.totalKeywords := by
  unfold markBatchComplete
  dsimp only
  split <;> rfl

lemma markBatchComplete_status (now : Int) (batch : List String) (p : Progress) :
    (markBatchComplete now batch p).status
      = if 0 < p.totalKeywords - (p.processedKeywords.length + batch.length)
        then p.status else .completed := by
  unfold markBatchComplete
  dsimp only
  split <;> rename_i hc
  · rw [if_pos (by simpa using hc)]
  · rw [if_neg (by simpa using hc)]

lemma pending_runCycle (b : Nat) (now : Int) (K : List String) (p : Progress)
    (hK : K.Nodup) :
    getPendingKeywords K (runCycle b now K p)
      = (getPendingKeywords K p).drop b := by
  by_cases hemp : (getPendingKeywords K p).isEmpty
  · have hnil : getPendingKeywords K p = [] := by
      simpa [List.isEmpty_iff] using hemp
    simp only [runCycle, prepareBatch, hemp, if_true]
    have : getPendingKeywords K { p with status := Status.completed }
        = getPendingKeywords K p := rfl
    rw [this, hnil]
    simp
  · have hemp2 : (getPendingKeywords K p).isEmpty = false := by
      simpa using hemp
    simp only [runCycle, prepareBatch, hemp2, Bool.false_eq_true, if_false]
    rw [getPending_markBatchComplete]
    have hsame : getPendingKeywords K
        { p with
            currentBatch := p.currentBatch + 1,
            totalKeywords := p.processedKeywords.length + (getPendingKeywords K p).length,
            totalBatches := jsCeilDiv (getPendingKeywords K p).length b,
            status := Status.processing }
        = getPendingKeywords K p := rfl
    rw [hsame]
    exact filter_take_nodup (getPendingKeywords K p) (hK.filter _) b

lemma pending_iterate (b : Nat) (now : Int) (K : List String) (p : Progress)
    (hK : K.Nodup) (n : Nat) :
    getPendingKeywords K ((fun q => runCycle b now K q)^[n] p)
      = (getPendingKeywords K p).drop (n * b) := by
  induction n with
  | zero => simp
  | succ n ih =>
    rw [Function.iterate_succ_apply', pending_runCycle b now K _ hK, ih,
      List.drop_drop]
    congr 1
    ring

lemma jsCeilDiv_eq (n b : Nat) (hb : 0 < b) (hn : 0 < n) :
    jsCeilDiv n b = (n - 1) / b + 1 := by
  unfold jsCeilDiv
  rw [show n + b - 1 = (n - 1) + b by omega, Nat.add_div_right _ hb]

lemma jsCeilDiv_mul_ge (n b : Nat) (hb : 0 < b) : n ≤ jsCeilDiv n b * b := by
  rcases Nat.eq_zero_or_pos n with hn | hn
  · simp [hn]
  · rw [jsCeilDiv_eq n b hb hn]
    have hlt := Nat.lt_div_mul_add (a := n - 1) (b := b) hb
    have : ((n - 1) / b + 1) * b = (n - 1) / b * b + b := by ring
    omega

lemma jsCeilDiv_pred_mul_lt (n b : Nat) (hb : 0 < b) (hn : 0 < n) :
    (jsCeilDiv n b - 1) * b < n := by
  rw [jsCeilDiv_eq n b hb hn, Nat.add_sub_cancel]
  have hle := Nat.div_mul_le_self (n - 1) b
  omega

/-- C4: `prepareBatch` returns exactly the first `min(batchSize, pending)`
pending keywords (a `null` batch counting as zero keywords), on a non-empty
pending set it records `totalBatches = ceil(pending / batchSize)`, and
repeated prepare/complete cycles drain the pending set to empty in exactly
`ceil(initialPending / batchSize)` cycles (it is still non-empty one cycle
earlier), for a duplicate-free keyword list. -/
theorem prepareBatch_slice_and_drain (b : Nat) (now : Int) (K : List String)
    (p : Progress) (hb : 0 < b) (hK : K.Nodup) :
    (prepareBatch b K p).1.getD [] = (getPendingKeywords K p).take b
    ∧ ((prepareBatch b K p).1.getD []).length
        = min b (getPendingKeywords K p).length
    ∧ ((getPendingKeywords K p).isEmpty = false →
        (prepareBatch b K p).2.totalBatches
          = jsCeilDiv (getPendingKeywords K p).length b)
    ∧ getPendingKeywords K
        ((fun q => runCycle b now K q)^[jsCeilDiv (getPendingKeywords K p).length b] p)
        = []
    ∧ (0 < (getPendingKeywords K p).length →
        getPendingKeywords K
          ((fun q => runCycle b now K q)^[jsCeilDiv (getPendingKeywords K p).length b - 1] p)
          ≠ []) := by
  refine ⟨?_, ?_, ?_, ?_, ?_⟩
  · by_cases hemp : (getPendingKeywords K p).isEmpty
    · have hnil : getPendingKeywords K p = [] := by
        simpa [List.isEmpty_iff] using hemp
      simp [prepareBatch, hemp, hnil]
    · have hemp2 : (getPendingKeywords K p).isEmpty = false := by simpa using hemp
      simp [prepareBatch, hemp2]
  · by_cases hemp : (getPendingKeywords K p).isEmpty
    · have hnil : getPendingKeywords K p = [] := by
        simpa [List.isEmpty_iff] using hemp
      simp [prepareBatch, hemp, hnil]
    · have hemp2 : (getPendingKeywords K p).isEmpty = false := by simpa using hemp
      simp [prepareBatch, hemp2, List.length_take]
  · intro hemp2
    simp [prepareBatch, hemp2]
  · rw [pending_iterate b now K p hK]
    apply List.drop_eq_nil_of_le
    exact jsCeilDiv_mul_ge _ b hb
  · intro hpos
    rw [pending_iterate b now K p hK]
    intro hcon
    have hle := List.drop_eq_nil_iff.mp hcon
    have := jsCeilDiv_pred_mul_lt (getPendingKeywords K p).length b hb hpos
    omega

/-- Witness for C4 at batch size 5 on a six-keyword list. -/
theorem prepareBatch_slice_and_drain_witness :
    (prepareBatch 5 ["a", "b", "c", "d", "e", "f"] (freshProgress 0)).1.getD []
        = (getPendingKeywords ["a", "b", "c", "d", "e", "f"] (freshProgress 0)).take 5
    ∧ ((prepareBatch 5 ["a", "b", "c", "d", "e", "f"] (freshProgress 0)).1.getD []).length
        = min 5 (getPendingKeywords ["a", "b", "c", "d", "e", "f"] (freshProgress 0)).length
    ∧ ((getPendingKeywords ["a", "b", "c", "d", "e", "f"] (freshProgress 0)).isEmpty = false →
        (prepareBatch 5 ["a", "b", "c", "d", "e", "f"] (freshProgress 0)).2.totalBatches
          = jsCeilDiv (getPendingKeywords ["a", "b", "c", "d", "e", "f"] (freshProgress 0)).length 5)
    ∧ getPendingKeywords ["a", "b", "c", "d", "e", "f"]
        ((fun q => runCycle 5 0 ["a", "b", "c", "d", "e", "f"] q)^[jsCeilDiv
          (getPendingKeywords ["a", "b", "c", "d", "e", "f"] (freshProgress 0)).length 5]
          (freshProgress 0))
        = []
    ∧ (0 < (getPendingKeywords ["a", "b", "c", "d", "e", "f"] (freshProgress 0)).length →
        getPendingKeywords ["a", "b", "c", "d", "e", "f"]
          ((fun q => runCycle 5 0 ["a", "b", "c", "d", "e", "f"] q)^[jsCeilDiv
            (getPendingKeywords ["a", "b", "c", "d", "e", "f"] (freshProgress 0)).length 5 - 1]
            (freshProgress 0))
          ≠ []) :=
  prepareBatch_slice_and_drain 5 0 ["a", "b", "c", "d", "e", "f"] (freshProgress 0)
    (by decide) (by decide)

lemma progressInv_prep (b : Nat) (K : List String) (p : Progress)
    (h : ProgressInv K p) : ProgressInv K (prepareBatch b K p).2 := by
  by_cases hemp : (getPendingKeywords K p).isEmpty
  · have hnil : getPendingKeywords K p = [] := by
      simpa [List.isEmpty_iff] using hemp
    have h2 : (prepareBatch b K p).2 = { p with status := .completed } := by
      simp [prepareBatch, hemp]
    have hpendq : getPendingKeywords K { p with status := Status.completed } = [] := hnil
    right
    rw [h2]
    refine ⟨?_, ?_⟩
    · rw [hpendq]
      rcases h with ⟨h1, hh2, h3⟩ | ⟨h1, hh2⟩
      · simp [h1, hh2]
      · simpa [hnil] using h1
    · rw [hpendq]
      simp
  · have hemp2 : (getPendingKeywords K p).isEmpty = false := by simpa using hemp
    have hne : getPendingKeywords K p ≠ [] := by
      simpa [List.isEmpty_iff] using hemp
    have h2 : (prepareBatch b K p).2
        = { p with
              currentBatch := p.currentBatch + 1,
              totalKeywords := p.processedKeywords.length + (getPendingKeywords K p).length,
              totalBatches := jsCeilDiv (getPendingKeywords K p).length b,
              status := Status.processing } := by
      simp [prepareBatch, hemp2]
    right
    rw [h2]
    have hpendq : getPendingKeywords K
        { p with
            currentBatch := p.currentBatch + 1,
            totalKeywords := p.processedKeywords.length + (getPendingKeywords K p).length,
            totalBatches := jsCeilDiv (getPendingKeywords K p).length b,
            status := Status.processing }
        = getPendingKeywords K p := rfl
    refine ⟨by rw [hpendq], ?_⟩
    rw [hpendq]
    constructor
    · intro hcon
      exact absurd hcon (by simp)
    · intro hlen
      exact absurd (List.length_eq_zero.mp hlen) hne

lemma progressInv_complete (b : Nat) (K : List String) (hK : K.Nodup)
    (p : Progress) (batch : List String) (now : Int)
    (hbatch : (prepareBatch b K p).1 = some batch) :
    ProgressInv K (markBatchComplete now batch (prepareBatch b K p).2) := by
  by_cases hemp : (getPendingKeywords K p).isEmpty
  · simp [prepareBatch, hemp] at hbatch
  have hemp2 : (getPendingKeywords K p).isEmpty = false := by simpa using hemp
  have hbatch2 : batch = (getPendingKeywords K p).take b := by
    simp [prepareBatch, hemp2] at hbatch
    exact hbatch.symm
  have hq : (prepareBatch b K p).2
      = { p with
            currentBatch := p.currentBatch + 1,
            totalKeywords := p.processedKeywords.length + (getPendingKeywords K p).length,
            totalBatches := jsCeilDiv (getPendingKeywords K p).length b,
            status := Status.processing } := by
    simp [prepareBatch, hemp2]
  rw [hq]
  have hqpend : getPendingKeywords K
      { p with
          currentBatch := p.currentBatch + 1,
          totalKeywords := p.processedKeywords.length + (getPendingKeywords K p).length,
          totalBatches := jsCeilDiv (getPendingKeywords K p).length b,
          status := Status.processing }
      = getPendingKeywords K p := rfl
  have hpendnd : (getPendingKeywords K p).Nodup := hK.filter _
  have hbl : batch.length = min b (getPendingKeywords K p).length := by
    rw [hbatch2]; exact List.length_take b (getPendingKeywords K p)
  have hnewpend : getPendingKeywords K (markBatchComplete now batch
      { p with
          currentBatch := p.currentBatch + 1,
          totalKeywords := p.processedKeywords.length + (getPendingKeywords K p).length,
          totalBatches := jsCeilDiv (getPendingKeywords K p).length b,
          status := Status.processing })
      = (getPendingKeywords K p).drop b := by
    rw [getPending_markBatchComplete, hqpend, hbatch2]
    exact filter_take_nodup (getPendingKeywords K p) hpendnd b
  right
  rw [hnewpend, markBatchComplete_total, markBatchComplete_processed,
    markBatchComplete_status]
  refine ⟨?_, ?_⟩
  · simp only [List.length_append, List.length_drop, hbl]
    omega
  · rw [List.length_drop]
    split <;> rename_i hc
    · simp only [List.length_append, hbl] at hc
      constructor
      · intro hcon
        simp at hcon
      · intro hlen
        omega
    · simp only [List.length_append, hbl] at hc
      constructor
      · intro _
        omega
      · intro _
        rfl

/-- C8 counterexample: with an empty keyword list, the fresh state produced
by `loadProgress` is reachable, satisfies
`processedKeywords.length = totalKeywords` with no pending keywords, and yet
its status is `idle`, not `completed` - refuting the claimed invariant. -/
theorem batch_fresh_state_violates_invariant :
    ReachableProgress 5 [] (freshProgress 0)
    ∧ (freshProgress 0).processedKeywords.length = (freshProgress 0).totalKeywords
    ∧ getPendingKeywords [] (freshProgress 0) = []
    ∧ (freshProgress 0).status ≠ .completed :=
  ⟨ReachableProgress.init 0, rfl, rfl, by decide⟩

/-- C8 (amended): for a non-empty, duplicate-free keyword list, every
batch-progress state reachable through `loadProgress`, `prepareBatch` and
`markBatchComplete` has status `completed` exactly when
`processedKeywords.length` equals `totalKeywords` and no pending keywords
remain. -/
theorem batch_status_invariant (b : Nat) (K : List String) (p : Progress)
    (hK : K ≠ []) (hnd : K.Nodup) (hr : ReachableProgress b K p) :
    (p.status = .completed
      ↔ (p.processedKeywords.length = p.totalKeywords
          ∧ getPendingKeywords K p = [])) := by
  have hinv : ProgressInv K p := by
    induction hr with
    | init t => exact Or.inl ⟨rfl, rfl, rfl⟩
    | prep hr ih => exact progressInv_prep _ K _ ih
    | complete hr hbatch ih => exact progressInv_complete _ K hnd _ _ _ hbatch
  rcases hinv with ⟨h1, h2, h3⟩ | ⟨h1, h2⟩
  · constructor
    · intro hcon; rw [h3] at hcon; cases hcon
    · rintro ⟨-, hpend⟩
      exfalso
      have : getPendingKeywords K p = K := by
        simp [getPendingKeywords, pendingOf, h1]
      exact hK (by rw [← this, hpend])
  · rw [h2]
    constructor
    · intro hlen
      have hpnil : getPendingKeywords K p = [] := List.length_eq_zero.mp hlen
      exact ⟨by omega, hpnil⟩
    · rintro ⟨-, hpend⟩
      rw [hpend]
      rfl

/-- Witness for C8 (amended) at the fresh state over the list `["a"]`. -/
theorem batch_status_invariant_witness :
    ((freshProgress 0).status = .completed
      ↔ ((freshProgress 0).processedKeywords.length = (freshProgress 0).totalKeywords
          ∧ getPendingKeywords ["a"] (freshProgress 0) = [])) :=
  batch_status_invariant 5 ["a"] (freshProgress 0) (by decide) (by decide)
    (ReachableProgress.init 0)

/-- C6: the keyword at ordinal position `E + k` across the full backlog (`E`
articles already in the store, `k`-th keyword of the batch of `L`, matching
`keywordCount` in the source) is assigned the publish date
`today + (slot - backdateDays + 1)` days with
`slot = floor((ordinal - 1) / postsPerDay)` and
`postsPerDay = max 1 (ceil(L / (backdateDays + futureDays)))`.  The
hypothesis `1 ≤ backdateDays` always holds for the code, whose configuration
`parseInt(env) || 3` cannot produce 0. -/
theorem publish_date_formula (E L b f k : Nat) (hb : 1 ≤ b) (hk : 1 ≤ k)
    (hkL : k ≤ L) :
    dayOffsetOf (E + k) (postsPerDayOf L b f) b
      = dateOffsetSpec (E + k) (postsPerDaySpec L b f) b := by
  have hpp : postsPerDayOf L b f = postsPerDaySpec L b f := by
    unfold postsPerDayOf postsPerDaySpec
    dsimp only
    rcases Nat.eq_zero_or_pos (jsCeilDiv L (b + f)) with h0 | hpos
    · rw [h0, if_pos rfl]
      simp
    · rw [if_neg (by omega)]
      omega
  rw [hpp]
  unfold dayOffsetOf dateOffsetSpec
  dsimp only
  rw [if_pos (by omega : (0:Nat) < b)]
  ring

/-- Witness for C6 at the configuration from the spec: `backdateDays = 3`,
`futureDays = 30`, 33 keywords, empty store; the 1st keyword gets
`today - 2`, the 4th gets `today + 1`. -/
theorem publish_date_formula_witness :
    dayOffsetOf (0 + 1) (postsPerDayOf 33 3 30) 3
        = dateOffsetSpec (0 + 1) (postsPerDaySpec 33 3 30) 3
    ∧ dayOffsetOf (0 + 4) (postsPerDayOf 33 3 30) 3
        = dateOffsetSpec (0 + 4) (postsPerDaySpec 33 3 30) 3
    ∧ dayOffsetOf 1 (postsPerDayOf 33 3 30) 3 = -2
    ∧ dayOffsetOf 4 (postsPerDayOf 33 3 30) 3 = 1 :=
  ⟨publish_date_formula 0 33 3 30 1 (by decide) (by decide) (by decide),
   publish_date_formula 0 33 3 30 4 (by decide) (by decide) (by decide),
   by decide, by decide⟩

lemma length_filterMap_add_length_filter_isNone {A B : Type} (f : A → Option B)
    (l : List A) :
    (l.filterMap f).length + (l.filter (fun a => (f a).isNone)).length = l.length := by
  induction l with
  | nil => rfl
  | cons a l ih =>
    cases hf : f a with
    | none =>
      simp only [List.filterMap_cons, List.filter_cons, hf, Option.isNone_none,
        if_true, List.length_cons]
      omega
    | some v =>
      simp only [List.filterMap_cons, List.filter_cons, hf, Option.isNone_some,
        Bool.false_eq_true, if_false, List.length_cons]
      omega

lemma processKeywordsFrom_spec (o : PipelineOracle) (pp b : Nat)
    (ks : List String) : ∀ kc : Nat,
    processKeywordsFrom o pp b ks kc
      = ((List.enumFrom (kc + 1) ks).filterMap (fun ik => processOne o pp b ik.1),
         ((List.enumFrom (kc + 1) ks).filterMap (fun ik => processOne o pp b ik.1)).length,
         ((List.enumFrom (kc + 1) ks).filter
             (fun ik => (processOne o pp b ik.1).isNone)).map (fun ik => jsTrim ik.2)) := by
  induction ks with
  | nil => intro kc; rfl
  | cons kw rest ih =>
    intro kc
    simp only [processKeywordsFrom, List.enumFrom_cons, List.filterMap_cons,
      List.filter_cons, ih (kc + 1)]
    cases hpo : processOne o pp b (kc + 1) with
    | some article => simp [hpo]
    | none => simp [hpo]

/-- C3: for every oracle, keyword list and initial store, the final store is
the initial store followed by exactly the fully assembled articles of the
keywords whose steps 1-2 succeeded (each with the step-3 rewrites and step-4
image applied, so an article is appended only after all four steps); a
keyword whose step 1 or 2 raised contributes nothing to the store and
appears (trimmed) in the failed log instead; and every keyword of the batch
is accounted for - generated plus failed counts equal the batch length, so
processing continues past failures. -/
theorem pipeline_store_characterization (o : PipelineOracle) (b f : Nat)
    (ks : List String) (init : List Article) :
    (processNewKeywords o b f ks init).1
        = init ++ (List.enumFrom (init.length + 1) ks).filterMap
            (fun ik => processOne o (postsPerDayOf ks.length b f) b ik.1)
    ∧ (processNewKeywords o b f ks init).2.1
        = ((List.enumFrom (init.length + 1) ks).filterMap
            (fun ik => processOne o (postsPerDayOf ks.length b f) b ik.1)).length
    ∧ (processNewKeywords o b f ks init).2.2
        = ((List.enumFrom (init.length + 1) ks).filter
            (fun ik => (processOne o (postsPerDayOf ks.length b f) b ik.1).isNone)).map
            (fun ik => jsTrim ik.2)
    ∧ (processNewKeywords o b f ks init).2.1
        + (processNewKeywords o b f ks init).2.2.length = ks.length := by
  have hspec := processKeywordsFrom_spec o (postsPerDayOf ks.length b f) b ks
    init.length
  refine ⟨?_, ?_, ?_, ?_⟩
  · simp [processNewKeywords, hspec]
  · simp [processNewKeywords, hspec]
  · simp [processNewKeywords, hspec]
  · simp only [processNewKeywords, hspec, List.length_map]
    rw [length_filterMap_add_length_filter_isNone]
    exact List.enumFrom_length

lemma splitAtLastClose_eq_none (cs : List Char) :
    splitAtLastClose cs = none ↔ '}' ∉ cs := by
  induction cs with
  | nil => simp [splitAtLastClose]
  | cons c rest ih =>
    simp only [splitAtLastClose]
    cases h : splitAtLastClose rest with
    | some pre =>
      simp only []
      constructor
      · intro hcon; cases hcon
      · intro hmem
        exfalso
        have : ¬('}' ∉ rest) := by
          intro hno
          rw [← ih] at hno
          rw [h] at hno
          cases hno
        simp only [List.mem_cons, not_or] at hmem
        exact this hmem.2
    | none =>
      have hno : '}' ∉ rest := ih.mp h
      by_cases hc : c = '}'
      · simp [hc]
      · have hc2 : ¬('}' = c) := fun hh => hc hh.symm
        simp [hc, hc2, hno]

lemma splitAtLastClose_decomp (mid post : List Char) (hpost : '}' ∉ post) :
    splitAtLastClose (mid ++ '}' :: post) = some (mid ++ ['}']) := by
  induction mid with
  | nil =>
    simp only [List.nil_append, splitAtLastClose]
    rw [(splitAtLastClose_eq_none post).mpr hpost]
    simp
  | cons m mid ih =>
    simp only [List.cons_append, splitAtLastClose, List.append_eq, ih]

lemma greedyBraceSpan_prefix (pre cs : List Char) (hpre : ∀ c ∈ pre, c ≠ '{') :
    greedyBraceSpan (pre ++ '{' :: cs)
      = match splitAtLastClose cs with
        | some p => some ('{' :: p)
        | none => none := by
  induction pre with
  | nil => simp [greedyBraceSpan]
  | cons p pre ih =>
    have hp : p ≠ '{' := hpre p (List.mem_cons_self p pre)
    simp only [List.cons_append, greedyBraceSpan, hp, if_false]
    exact ih (fun c hc => hpre c (List.mem_cons_of_mem p hc))

lemma greedyBraceSpan_some_decomp (cs span : List Char)
    (h : greedyBraceSpan cs = some span) :
    ∃ pre mid post, cs = pre ++ '{' :: (mid ++ '}' :: post) := by
  induction cs with
  | nil => cases h
  | cons c rest ih =>
    by_cases hc : c = '{'
    · subst hc
      simp only [greedyBraceSpan, if_pos rfl] at h
      cases hsplit : splitAtLastClose rest with
      | none => rw [hsplit] at h; cases h
      | some p =>
        have hmem : '}' ∈ rest := by
          by_contra hno
          rw [(splitAtLastClose_eq_none rest).mpr hno] at hsplit
          cases hsplit
        obtain ⟨mid, post, hdecomp⟩ := List.append_of_mem hmem
        exact ⟨[], mid, post, by simp [hdecomp]⟩
    · simp only [greedyBraceSpan, hc, if_false] at h
      obtain ⟨pre, mid, post, hdecomp⟩ := ih h
      exact ⟨c :: pre, mid, post, by simp [hdecomp]⟩

/-- C7 counterexample: on the output `{"a":1}x{"b":2}` the code's extractor
matches greedily from the first `{` to the LAST `}`, so `JSON.parse` throws
and `extractJson` returns `null`, while the claimed first-balanced-span
extraction parses `{"a":1}` and succeeds. -/
theorem extractJson_not_first_balanced :
    extractJson "\x7b\"a\":1\x7dx\x7b\"b\":2\x7d" = none
    ∧ firstBalancedSpan ("\x7b\"a\":1\x7dx\x7b\"b\":2\x7d").toList
        = some ("\x7b\"a\":1\x7d").toList
    ∧ extractJsonFirstBalancedSpec "\x7b\"a\":1\x7dx\x7b\"b\":2\x7d"
        = some (Json.obj [("a", Json.num 1)]) :=
  ⟨rfl, rfl, rfl⟩

/-- C7 (amended): the JSON extraction step takes the span from the first `{`
through the LAST `}` of the model output (the regex is greedy) and returns
the result of parsing that span, and the keyword fails (the extractor
returns null) exactly when no such span exists or parsing the span fails:
whenever the text decomposes as junk without `{`, then `{`, a middle, the
last `}`, and junk without `}`, the extractor returns exactly the parse of
that first-to-last span; and when no `{...}` span exists at all it returns
`none`. -/
theorem extractJson_first_to_last (s : String) :
    (∀ pre mid post, s.toList = pre ++ '{' :: (mid ++ '}' :: post) →
        (∀ c ∈ pre, c ≠ '{') → (∀ c ∈ post, c ≠ '}') →
        extractJson s = jsonParse (String.mk ('{' :: (mid ++ ['}']))))
    ∧ ((∀ pre mid post, s.toList ≠ pre ++ '{' :: (mid ++ '}' :: post)) →
        extractJson s = none) := by
  constructor
  · intro pre mid post hdecomp hpre hpost
    have hnopost : '}' ∉ post := fun hm => hpost '}' hm rfl
    unfold extractJson
    rw [hdecomp, greedyBraceSpan_prefix pre _ hpre,
      splitAtLastClose_decomp mid post hnopost]
    dsimp only
    cases hj : jsonParse (String.mk ('{' :: (mid ++ ['}']))) <;> simp [hj]
  · intro h
    unfold extractJson
    cases hg : greedyBraceSpan s.toList with
    | none => rfl
    | some span =>
      obtain ⟨pre, mid, post, hdecomp⟩ := greedyBraceSpan_some_decomp _ _ hg
      exact absurd hdecomp (h pre mid post)

/-- Witness for C7 (amended) on the text `x{"a":1}y`. -/
theorem extractJson_first_to_last_witness :
    extractJson "x\x7b\"a\":1\x7dy" = jsonParse "\x7b\"a\":1\x7d" :=
  (extractJson_first_to_last "x\x7b\"a\":1\x7dy").1
    ['x'] ['"', 'a', '"', ':', '1'] ['y'] rfl (by decide) (by decide)

end Lets

